import Mathlib

/-!
Verification of the `deepsize` crate's size-accounting engine.

The embedding models the `DeepSizeOf` trait's recursive traversal over a
universe `Val` of measurable values.  Machine details:

* addresses (`usize` pointers used as identities) are `Nat`;
* `std::mem::size_of_val` on a value is `sizeOfVal` with a 64-bit pointer
  width of 8 bytes; padding of product types is not modelled (no claim
  depends on a tuple's own immediate size);
* `HashSet<usize>` is a `List Nat` with set-semantics insertion
  (insert is a no-op when the element is present);
* the `&T` impl in `src/lib.rs` calls `contains_ref(&self)` /
  `add_ref(&self)` where `self : &&T`, so the `usize` identity the code
  records is the address of the local `self` parameter slot, NOT the
  referent's address.  A `Val.ref` node therefore carries both the
  referent's address (`target`, used only to state claims about referent
  identity) and the slot address the code actually uses (`slot`).
* a `HashMap<K, V, S>` carries `size_of::<Option<(u64, K, V)>>` as the
  parameter `entrySize` (a layout constant of the platform), besides the
  immediate sizes `keySize`, `valSize` of `K` and `V`.
-/

/-- Pointer width in bytes (64-bit platform). -/
def ptrSize : Nat := 8

/-- The traversal context of `src/lib.rs`: three `HashSet<usize>` of
already-counted identities (`arcs`, `rcs`, `refs`). -/
structure Context where
  arcs : List Nat
  rcs : List Nat
  refs : List Nat
deriving Repr, DecidableEq

/-- `HashSet::insert`: add the element unless already present. -/
def hsInsert (x : Nat) (l : List Nat) : List Nat :=
  if x ∈ l then l else x :: l

/-- `Context::new`: all three sets empty. -/
def Context.new : Context := { arcs := [], rcs := [], refs := [] }

/-- `Context::add_arc`: record the `ArcInner` pointer. -/
def Context.addArc (c : Context) (p : Nat) : Context :=
  { c with arcs := hsInsert p c.arcs }

/-- `Context::contains_arc`. -/
def Context.containsArc (c : Context) (p : Nat) : Bool :=
  decide (p ∈ c.arcs)

/-- `Context::add_rc`: record the `RcBox` pointer. -/
def Context.addRc (c : Context) (p : Nat) : Context :=
  { c with rcs := hsInsert p c.rcs }

/-- `Context::contains_rc`. -/
def Context.containsRc (c : Context) (p : Nat) : Bool :=
  decide (p ∈ c.rcs)

/-- `Context::add_ref`: record the address passed as `reference`. -/
def Context.addRef (c : Context) (p : Nat) : Context :=
  { c with refs := hsInsert p c.refs }

/-- `Context::contains_ref`. -/
def Context.containsRef (c : Context) (p : Nat) : Bool :=
  decide (p ∈ c.refs)

/-- Measurable values: the closed universe the per-type `DeepSizeOf`
impls of `src/lib.rs` and `src/default_impls.rs` are stated over.
`prim s` is any type with `deep_size_of_children = 0` and immediate size
`s` (the `known_deep_size!(0, ...)` types).  `ref target slot v` is a
`&T` whose referent lives at `target`; `slot` is the address of the
callee's local `self` parameter that the code uses as identity. -/
inductive Val : Type where
  | prim (size : Nat)
  | box (pointee : Val)
  | arc (addr : Nat) (pointee : Val)
  | rc (addr : Nat) (pointee : Val)
  | ref (target : Nat) (slot : Nat) (pointee : Val)
  | vec (elemSize : Nat) (cap : Nat) (elems : List Val)
  | deque (elemSize : Nat) (cap : Nat) (elems : List Val)
  | hmap (keySize valSize entrySize : Nat) (cap : Nat)
      (entries : List (Val × Val))
  | tup (fields : List Val)
deriving Repr

mutual

/-- `std::mem::size_of_val`: the immediate (stack/inline) size of a value.
Pointers are `ptrSize`; a `Vec` header is three words, a `VecDeque`
header four; product types are summed without padding (unused by the
claims). -/
def sizeOfVal : Val → Nat
  | .prim s => s
  | .box _ => ptrSize
  | .arc _ _ => ptrSize
  | .rc _ _ => ptrSize
  | .ref _ _ _ => ptrSize
  | .vec _ _ _ => 3 * ptrSize
  | .deque _ _ _ => 4 * ptrSize
  | .hmap _ _ _ _ _ => 6 * ptrSize
  | .tup fs => sizesOf fs

/-- Immediate sizes of a field list, summed (padding not modelled). -/
def sizesOf : List Val → Nat
  | [] => 0
  | f :: fs => sizeOfVal f + sizesOf fs

end

mutual

/-- `DeepSizeOf::deep_size_of_children`, threaded through the mutable
`Context` (state passed explicitly: result is the byte count and the
updated context).  Each arm is the corresponding impl in `src/lib.rs` /
`src/default_impls.rs`:

* `prim`: the `known_deep_size!(0, ...)` impls return `0`;
* `box`: `size_of_val(val) + val.deep_size_of_children(context)`;
* `arc`/`rc`: `0` if `contains_arc`/`contains_rc`, else `add_arc`/`add_rc`
  then `size_of_val(val) + val.deep_size_of_children(context)`;
* `ref`: `0` if `contains_ref(&self)` (identity = the `slot` address),
  else `add_ref(&self)` then `size_of_val(*self) + children`;
* `vec`/`deque`: fold of children plus `capacity * size_of::<T>()`;
* `hmap`: fold of key and value children plus
  `capacity * size_of::<Option<(u64, K, V)>>()`;
* `tup`: `0 + Σ self.i.deep_size_of_children(context)`. -/
def deep_size_of_children : Val → Context → Nat × Context
  | .prim _, c => (0, c)
  | .box v, c =>
      let r := deep_size_of_children v c
      (sizeOfVal v + r.1, r.2)
  | .arc a v, c =>
      if c.containsArc a then (0, c)
      else
        let c1 := c.addArc a
        let r := deep_size_of_children v c1
        (sizeOfVal v + r.1, r.2)
  | .rc a v, c =>
      if c.containsRc a then (0, c)
      else
        let c1 := c.addRc a
        let r := deep_size_of_children v c1
        (sizeOfVal v + r.1, r.2)
  | .ref _ s v, c =>
      if c.containsRef s then (0, c)
      else
        let c1 := c.addRef s
        let r := deep_size_of_children v c1
        (sizeOfVal v + r.1, r.2)
  | .vec e cap es, c =>
      let r := children_fold es c
      (r.1 + cap * e, r.2)
  | .deque e cap es, c =>
      let r := children_fold es c
      (r.1 + cap * e, r.2)
  | .hmap _ _ entry cap kvs, c =>
      let r := children_fold_pairs kvs c
      (r.1 + cap * entry, r.2)
  | .tup fs, c => children_fold fs c

/-- The element fold shared by the `Vec`, `VecDeque`, slice and tuple
impls: `iter().fold(0, |sum, child| sum + child.deep_size_of_children(ctx))`
with the context threaded left to right. -/
def children_fold : List Val → Context → Nat × Context
  | [], c => (0, c)
  | v :: vs, c =>
      let r := deep_size_of_children v c
      let rs := children_fold vs r.2
      (r.1 + rs.1, rs.2)

/-- The `HashMap` fold: for each entry, key children then value children,
context threaded left to right. -/
def children_fold_pairs : List (Val × Val) → Context → Nat × Context
  | [], c => (0, c)
  | (k, v) :: kvs, c =>
      let rk := deep_size_of_children k c
      let rv := deep_size_of_children v rk.2
      let rs := children_fold_pairs kvs rv.2
      (rk.1 + rv.1 + rs.1, rs.2)

end

/-- `DeepSizeOf::deep_size_of`, the provided method:
`size_of_val(self) + self.deep_size_of_children(&mut Context::new())`. -/
def deep_size_of (v : Val) : Nat :=
  sizeOfVal v + (deep_size_of_children v Context.new).1

example : deep_size_of (.box (.prim 4)) = 8 + 4 := by
  simp [deep_size_of, deep_size_of_children, sizeOfVal, Context.new, ptrSize]

/-- One context extends another: each visited set of the first is a
suffix of the corresponding set of the second.  `hsInsert` only ever
conses at the front, so every traversal step extends in this sense. -/
def ctxExtends (c d : Context) : Prop :=
  c.arcs <:+ d.arcs ∧ c.rcs <:+ d.rcs ∧ c.refs <:+ d.refs

theorem ctxExtends_refl (c : Context) : ctxExtends c c :=
  ⟨List.suffix_refl _, List.suffix_refl _, List.suffix_refl _⟩

theorem ctxExtends_trans {a b c : Context} (h1 : ctxExtends a b)
    (h2 : ctxExtends b c) : ctxExtends a c :=
  ⟨h1.1.trans h2.1, h1.2.1.trans h2.2.1, h1.2.2.trans h2.2.2⟩

theorem hsInsert_suffix (x : Nat) (l : List Nat) : l <:+ hsInsert x l := by
  unfold hsInsert
  split
  · exact List.suffix_refl _
  · exact List.suffix_cons x l

theorem ctxExtends_addArc (c : Context) (p : Nat) :
    ctxExtends c (c.addArc p) :=
  ⟨hsInsert_suffix p c.arcs, List.suffix_refl _, List.suffix_refl _⟩

theorem ctxExtends_addRc (c : Context) (p : Nat) :
    ctxExtends c (c.addRc p) :=
  ⟨List.suffix_refl _, hsInsert_suffix p c.rcs, List.suffix_refl _⟩

theorem ctxExtends_addRef (c : Context) (p : Nat) :
    ctxExtends c (c.addRef p) :=
  ⟨List.suffix_refl _, List.suffix_refl _, hsInsert_suffix p c.refs⟩

mutual

/-- A traversal only extends the context: the input context's three
sets are suffixes of the output context's. -/
theorem ctx_mono : ∀ (v : Val) (c : Context),
    ctxExtends c (deep_size_of_children v c).2
  | .prim _, c => by
      simpa [deep_size_of_children] using ctxExtends_refl c
  | .box v, c => by
      simpa [deep_size_of_children] using ctx_mono v c
  | .arc a v, c => by
      by_cases h : c.containsArc a
      · simp [deep_size_of_children, h]
        exact ctxExtends_refl c
      · simp [deep_size_of_children, h]
        exact ctxExtends_trans (ctxExtends_addArc c a) (ctx_mono v (c.addArc a))
  | .rc a v, c => by
      by_cases h : c.containsRc a
      · simp [deep_size_of_children, h]
        exact ctxExtends_refl c
      · simp [deep_size_of_children, h]
        exact ctxExtends_trans (ctxExtends_addRc c a) (ctx_mono v (c.addRc a))
  | .ref t s v, c => by
      by_cases h : c.containsRef s
      · simp [deep_size_of_children, h]
        exact ctxExtends_refl c
      · simp [deep_size_of_children, h]
        exact ctxExtends_trans (ctxExtends_addRef c s) (ctx_mono v (c.addRef s))
  | .vec e cap es, c => by
      simpa [deep_size_of_children] using ctx_mono_fold es c
  | .deque e cap es, c => by
      simpa [deep_size_of_children] using ctx_mono_fold es c
  | .hmap ks vs en cap kvs, c => by
      simpa [deep_size_of_children] using ctx_mono_pairs kvs c
  | .tup fs, c => by
      simpa [deep_size_of_children] using ctx_mono_fold fs c

theorem ctx_mono_fold : ∀ (vs : List Val) (c : Context),
    ctxExtends c (children_fold vs c).2
  | [], c => by
      simpa [children_fold] using ctxExtends_refl c
  | v :: vs, c => by
      simp [children_fold]
      exact ctxExtends_trans (ctx_mono v c)
        (ctx_mono_fold vs (deep_size_of_children v c).2)

theorem ctx_mono_pairs : ∀ (kvs : List (Val × Val)) (c : Context),
    ctxExtends c (children_fold_pairs kvs c).2
  | [], c => by
      simpa [children_fold_pairs] using ctxExtends_refl c
  | (k, v) :: kvs, c => by
      simp [children_fold_pairs]
      exact ctxExtends_trans (ctx_mono k c)
        (ctxExtends_trans (ctx_mono v (deep_size_of_children k c).2)
          (ctx_mono_pairs kvs
            (deep_size_of_children v (deep_size_of_children k c).2).2))

end

theorem hsInsert_self_mem (x : Nat) (l : List Nat) : x ∈ hsInsert x l := by
  unfold hsInsert
  split
  · assumption
  · exact List.mem_cons_self x l

/-- Helper: an identity present in the context's arc set stays present
through any further traversal. -/
theorem mem_arcs_mono (a : Nat) (v : Val) (c : Context) (h : a ∈ c.arcs) :
    a ∈ (deep_size_of_children v c).2.arcs :=
  (ctx_mono v c).1.subset h

theorem mem_rcs_mono (a : Nat) (v : Val) (c : Context) (h : a ∈ c.rcs) :
    a ∈ (deep_size_of_children v c).2.rcs :=
  (ctx_mono v c).2.1.subset h

/-- Helper: a repeat-visited `Arc` contributes 0 and leaves the context
unchanged, so a whole list of repeat visits folds to `(0, c)`. -/
theorem children_fold_arc_repeat (a : Nat) (v : Val) (m : Nat) (c : Context)
    (h : a ∈ c.arcs) :
    children_fold (List.replicate m (.arc a v)) c = (0, c) := by
  induction m with
  | zero => simp [children_fold]
  | succ m ih =>
      have harc : deep_size_of_children (.arc a v) c = (0, c) := by
        simp [deep_size_of_children, Context.containsArc, h]
      simp [List.replicate_succ, children_fold, harc, ih]

/-- C1: a shared reference-counted allocation (`Arc` or `Rc`) reachable
more than once in one measurement is contributed exactly once.  A repeat
visit of an already-recorded identity contributes 0 and leaves the
context unchanged; a first visit records the identity in the matching
shared set and contributes the pointee's immediate size plus its
owned-children size; and an aggregate holding `n ≥ 1` copies of the same
`Arc` contributes that full size exactly once in total. -/
theorem arc_rc_counted_once :
    ∀ (a : Nat) (v : Val) (c : Context) (n : Nat),
    (a ∈ c.arcs → deep_size_of_children (.arc a v) c = (0, c)) ∧
    (a ∈ c.rcs → deep_size_of_children (.rc a v) c = (0, c)) ∧
    (a ∉ c.arcs →
      (deep_size_of_children (.arc a v) c).1
          = sizeOfVal v + (deep_size_of_children v (c.addArc a)).1
        ∧ a ∈ (deep_size_of_children (.arc a v) c).2.arcs) ∧
    (a ∉ c.rcs →
      (deep_size_of_children (.rc a v) c).1
          = sizeOfVal v + (deep_size_of_children v (c.addRc a)).1
        ∧ a ∈ (deep_size_of_children (.rc a v) c).2.rcs) ∧
    (a ∉ c.arcs → 1 ≤ n →
      (deep_size_of_children (.tup (List.replicate n (.arc a v))) c).1
          = sizeOfVal v + (deep_size_of_children v (c.addArc a)).1) := by
  intro a v c n
  refine ⟨?_, ?_, ?_, ?_, ?_⟩
  · intro h
    simp [deep_size_of_children, Context.containsArc, h]
  · intro h
    simp [deep_size_of_children, Context.containsRc, h]
  · intro h
    constructor
    · simp [deep_size_of_children, Context.containsArc, h]
    · have hmem : a ∈ (c.addArc a).arcs := hsInsert_self_mem a c.arcs
      simp [deep_size_of_children, Context.containsArc, h]
      exact mem_arcs_mono a v (c.addArc a) hmem
  · intro h
    constructor
    · simp [deep_size_of_children, Context.containsRc, h]
    · have hmem : a ∈ (c.addRc a).rcs := hsInsert_self_mem a c.rcs
      simp [deep_size_of_children, Context.containsRc, h]
      exact mem_rcs_mono a v (c.addRc a) hmem
  · intro h hn
    obtain ⟨m, rfl⟩ : ∃ m, n = m + 1 := ⟨n - 1, by omega⟩
    have hfirst : deep_size_of_children (.arc a v) c
        = (sizeOfVal v + (deep_size_of_children v (c.addArc a)).1,
           (deep_size_of_children v (c.addArc a)).2) := by
      simp [deep_size_of_children, Context.containsArc, h]
    have hmem : a ∈ (deep_size_of_children v (c.addArc a)).2.arcs :=
      mem_arcs_mono a v (c.addArc a) (hsInsert_self_mem a c.arcs)
    have hrest := children_fold_arc_repeat a v m
      (deep_size_of_children v (c.addArc a)).2 hmem
    simp [List.replicate_succ, deep_size_of_children, children_fold,
      Context.containsArc, h, hrest]

/-- Witness for C1 at `a = 0`, `v = prim 5`, `c = Context.new`, `n = 2`:
the repeat visit contributes 0, and two copies of the `Arc` in one tuple
contribute the 5-byte pointee exactly once. -/
theorem arc_rc_counted_once_witness :
    deep_size_of_children (.arc 0 (.prim 5)) (Context.new.addArc 0)
        = (0, Context.new.addArc 0)
      ∧ (deep_size_of_children
          (.tup (List.replicate 2 (.arc 0 (.prim 5)))) Context.new).1 = 5 := by
  constructor
  · exact (arc_rc_counted_once 0 (.prim 5) (Context.new.addArc 0) 2).1
      (by simp [Context.new, Context.addArc, hsInsert])
  · have h := (arc_rc_counted_once 0 (.prim 5) Context.new 2).2.2.2.2
      (by simp [Context.new]) (by omega)
    simpa [deep_size_of_children, sizeOfVal] using h

/-- C10: the context's visited sets only grow.  Each mutating operation
(`add_arc`, `add_rc`, `add_ref`) only inserts (the old set is a suffix
of the new), and any traversal from `c` ends in a context of which each
of `c`'s three sets is a suffix — so an identity once marked visited
stays visited for the rest of the measurement. -/
theorem context_sets_only_grow :
    ∀ (c : Context) (p : Nat) (v : Val),
    ctxExtends c (c.addArc p)
      ∧ ctxExtends c (c.addRc p)
      ∧ ctxExtends c (c.addRef p)
      ∧ ctxExtends c (deep_size_of_children v c).2 := by
  intro c p v
  exact ⟨ctxExtends_addArc c p, ctxExtends_addRc c p,
    ctxExtends_addRef c p, ctx_mono v c⟩

/-- Follows the spec's words (policy table): "sum of each element's full
size" — each element's immediate size plus its owned-children size, with
the context threaded left to right.  This is the spec-side formula the
container claims compare the source's fold against. -/
def specFullSizesFold : List Val → Context → Nat × Context
  | [], c => (0, c)
  | v :: vs, c =>
      let r := deep_size_of_children v c
      let rs := specFullSizesFold vs r.2
      (sizeOfVal v + r.1 + rs.1, rs.2)

/-- Helper: the spec-side full-size fold is the immediate sizes of the
elements plus the source's children-only fold, over the same context. -/
theorem specFullSizesFold_eq (vs : List Val) (c : Context) :
    (specFullSizesFold vs c).1 = sizesOf vs + (children_fold vs c).1
      ∧ (specFullSizesFold vs c).2 = (children_fold vs c).2 := by
  induction vs generalizing c with
  | nil => simp [specFullSizesFold, children_fold, sizesOf]
  | cons v vs ih =>
      have h := ih (deep_size_of_children v c).2
      simp [specFullSizesFold, children_fold, sizesOf, h.1, h.2]
      omega

theorem sizesOf_const (E : Nat) (es : List Val)
    (h : ∀ e ∈ es, sizeOfVal e = E) : sizesOf es = es.length * E := by
  induction es with
  | nil => simp [sizesOf]
  | cons e es ih =>
      have he := h e (List.mem_cons_self e es)
      have hrest := ih fun x hx => h x (List.mem_cons_of_mem e hx)
      simp [sizesOf, he, hrest]
      ring

theorem children_fold_prims (E m : Nat) (c : Context) :
    children_fold (List.replicate m (.prim E)) c = (0, c) := by
  induction m with
  | zero => simp [children_fold]
  | succ m ih =>
      simp [List.replicate_succ, children_fold, deep_size_of_children, ih]

/-- C2: the public entry point `deep_size_of` is exactly the value's
immediate size plus its owned-children size measured against a freshly
created `Context` whose three visited sets are all empty. -/
theorem deep_size_of_fresh_context :
    ∀ (v : Val),
    deep_size_of v
        = sizeOfVal v
          + (deep_size_of_children v
              { arcs := [], rcs := [], refs := [] }).1
      ∧ Context.new = { arcs := [], rcs := [], refs := [] } := by
  intro v
  exact ⟨rfl, rfl⟩

/-- C4: for a growable array (`Vec`) or double-ended growable array
(`VecDeque`) of `N` elements of immediate size `E` with capacity
`C ≥ N`, the owned-children size is the sum of each element's full size
plus unused slack `(C − N) × E`; with no owned grandchildren this is
`C × E`, the whole backing buffer. -/
theorem vec_deque_capacity_slack :
    ∀ (E C : Nat) (es : List Val) (c : Context) (n : Nat),
    ((∀ e ∈ es, sizeOfVal e = E) → es.length ≤ C →
      (deep_size_of_children (.vec E C es) c).1
          = (specFullSizesFold es c).1 + (C - es.length) * E
        ∧ (deep_size_of_children (.deque E C es) c).1
          = (specFullSizesFold es c).1 + (C - es.length) * E)
    ∧ (n ≤ C →
      (deep_size_of_children (.vec E C (List.replicate n (.prim E))) c).1
          = C * E
        ∧ (deep_size_of_children
            (.deque E C (List.replicate n (.prim E))) c).1 = C * E) := by
  intro E C es c n
  constructor
  · intro hsz hlen
    have hfull := (specFullSizesFold_eq es c).1
    have hconst := sizesOf_const E es hsz
    have hsplit : es.length * E + (C - es.length) * E = C * E := by
      rw [← Nat.add_mul, Nat.add_sub_cancel' hlen]
    constructor
    · simp [deep_size_of_children, hfull, hconst]
      omega
    · simp [deep_size_of_children, hfull, hconst]
      omega
  · intro hn
    constructor
    · simp [deep_size_of_children, children_fold_prims]
    · simp [deep_size_of_children, children_fold_prims]

/-- Witness for C4: 13 one-byte elements with capacity 16 give
owned-children size `13×1 + (16−13)×1 = 16` — the whole buffer. -/
theorem vec_deque_capacity_slack_witness :
    (deep_size_of_children
        (.vec 1 16 (List.replicate 13 (.prim 1))) Context.new).1
      = (specFullSizesFold (List.replicate 13 (.prim 1)) Context.new).1
          + (16 - (List.replicate 13 (Val.prim 1)).length) * 1
    ∧ (deep_size_of_children
        (.vec 1 16 (List.replicate 13 (.prim 1))) Context.new).1 = 16 * 1 := by
  constructor
  · exact ((vec_deque_capacity_slack 1 16 (List.replicate 13 (.prim 1))
        Context.new 13).1
      (by
        intro e he
        rw [List.eq_of_mem_replicate he]
        rfl)
      (by simp)).1
  · exact ((vec_deque_capacity_slack 1 16 (List.replicate 13 (.prim 1))
        Context.new 13).2 (by omega)).1

/-- C3 (code bug): the `&T` impl records the address of its own local
`self` parameter (`add_ref(&self)` with `self : &&T`), not the
referent's identity.  Two references to the same referent (target
address 100, an 8-byte value) measured from two distinct parameter
slots (1 and 2) are BOTH counted in full: the tuple's owned-children
size is 16, not the 8 the claim requires, and the recorded identities
are the slot addresses `[2, 1]`, never the referent identity 100. -/
theorem ref_dedup_uses_local_address :
    deep_size_of_children
        (.tup [.ref 100 1 (.prim 8), .ref 100 2 (.prim 8)]) Context.new
      = (16, { arcs := [], rcs := [], refs := [2, 1] })
    ∧ (deep_size_of_children
        (.tup [.ref 100 1 (.prim 8), .ref 100 2 (.prim 8)])
          Context.new).1 ≠ 8 := by
  constructor
  · simp [deep_size_of_children, children_fold, Context.new,
      Context.containsRef, Context.addRef, hsInsert, sizeOfVal]
  · simp [deep_size_of_children, children_fold, Context.new,
      Context.containsRef, Context.addRef, hsInsert, sizeOfVal]

/-- C9 (code bug): the total is NOT independent of member order.  Two
borrowed references whose local `self` parameter slots coincide
(address 5) but whose referents differ (an 8-byte value at 7, a
100-byte value at 9) give total 8 in one order and 100 in the reversed
order: whichever reference is visited first is counted, the other is
wrongly treated as already seen. -/
theorem order_dependence_refs :
    (deep_size_of_children
        (.tup [.ref 7 5 (.prim 8), .ref 9 5 (.prim 100)]) Context.new).1 = 8
    ∧ (deep_size_of_children
        (.tup [.ref 9 5 (.prim 100), .ref 7 5 (.prim 8)]) Context.new).1
        = 100 := by
  constructor
  · simp [deep_size_of_children, children_fold, Context.new,
      Context.containsRef, Context.addRef, hsInsert, sizeOfVal]
  · simp [deep_size_of_children, children_fold, Context.new,
      Context.containsRef, Context.addRef, hsInsert, sizeOfVal]

/-- Follows the spec's words for the hash-map row: "sum of each key's
and value's full size", context threaded key then value, left to
right. -/
def specPairsFullFold : List (Val × Val) → Context → Nat × Context
  | [], c => (0, c)
  | (k, v) :: kvs, c =>
      let rk := deep_size_of_children k c
      let rv := deep_size_of_children v rk.2
      let rs := specPairsFullFold kvs rv.2
      (sizeOfVal k + rk.1 + sizeOfVal v + rv.1 + rs.1, rs.2)

/-- Follows the spec's words: hash-map owned-children size = sum of each
key's and value's full size plus slack = unused-bucket capacity ×
(key immediate size + value immediate size). -/
def hashMapSpecChildren (ksz vsz cap : Nat) (kvs : List (Val × Val))
    (c : Context) : Nat :=
  (specPairsFullFold kvs c).1 + (cap - kvs.length) * (ksz + vsz)

/-- Immediate sizes of key and value over an entry list, summed. -/
def pairSizes : List (Val × Val) → Nat
  | [] => 0
  | (k, v) :: kvs => sizeOfVal k + sizeOfVal v + pairSizes kvs

/-- Helper: the spec-side pair fold is the entries' immediate sizes plus
the source's children-only pair fold. -/
theorem specPairsFullFold_eq (kvs : List (Val × Val)) (c : Context) :
    (specPairsFullFold kvs c).1
        = pairSizes kvs + (children_fold_pairs kvs c).1
      ∧ (specPairsFullFold kvs c).2 = (children_fold_pairs kvs c).2 := by
  induction kvs generalizing c with
  | nil => simp [specPairsFullFold, children_fold_pairs, pairSizes]
  | cons kv kvs ih =>
      obtain ⟨k, v⟩ := kv
      have h := ih (deep_size_of_children v (deep_size_of_children k c).2).2
      simp [specPairsFullFold, children_fold_pairs, pairSizes, h.1, h.2]
      omega

theorem pairSizes_const (ksz vsz : Nat) (kvs : List (Val × Val))
    (h : ∀ kv ∈ kvs, sizeOfVal kv.1 = ksz ∧ sizeOfVal kv.2 = vsz) :
    pairSizes kvs = kvs.length * (ksz + vsz) := by
  induction kvs with
  | nil => simp [pairSizes]
  | cons kv kvs ih =>
      have he := h kv (List.mem_cons_self kv kvs)
      have hrest := ih fun x hx => h x (List.mem_cons_of_mem kv hx)
      obtain ⟨k, v⟩ := kv
      simp at he
      simp [pairSizes, he.1, he.2, hrest]
      ring

/-- C5 counterexample: a hash map with `K = V = u32` (immediate size 4,
bucket entry `Option<(u64, u32, u32)>` of size 24), capacity 2 and one
entry.  The code yields `0 + 2 × 24 = 48`; the spec's formula yields
`(4 + 4) + (2 − 1) × (4 + 4) = 16`. -/
theorem hashmap_spec_formula_counterexample :
    (deep_size_of_children
        (.hmap 4 4 24 2 [(.prim 4, .prim 4)]) Context.new).1 = 48
    ∧ hashMapSpecChildren 4 4 2 [(.prim 4, .prim 4)] Context.new = 16
    ∧ (deep_size_of_children
        (.hmap 4 4 24 2 [(.prim 4, .prim 4)]) Context.new).1
        ≠ hashMapSpecChildren 4 4 2 [(.prim 4, .prim 4)] Context.new := by
  refine ⟨?_, ?_, ?_⟩ <;>
    simp [deep_size_of_children, children_fold_pairs, hashMapSpecChildren,
      specPairsFullFold, sizeOfVal, Context.new]

/-- C5 amended: the hash-map owned-children size is the sum of each
key's and value's full size plus slack, where the slack is
`capacity × size_of::<Option<(u64, K, V)>>()` minus the part already
counted by the entries' immediate sizes — the per-bucket factor is the
bucket entry size (with the cached 64-bit hash and the discriminant),
not `key immediate size + value immediate size`. -/
theorem hashmap_children_bucket_entry :
    ∀ (ksz vsz entry cap : Nat) (kvs : List (Val × Val)) (c : Context),
    (∀ kv ∈ kvs, sizeOfVal kv.1 = ksz ∧ sizeOfVal kv.2 = vsz) →
    kvs.length * (ksz + vsz) ≤ cap * entry →
    (deep_size_of_children (.hmap ksz vsz entry cap kvs) c).1
      = (specPairsFullFold kvs c).1
          + (cap * entry - kvs.length * (ksz + vsz)) := by
  intro ksz vsz entry cap kvs c hsz hle
  have hfull := (specPairsFullFold_eq kvs c).1
  have hconst := pairSizes_const ksz vsz kvs hsz
  simp [deep_size_of_children, hfull, hconst]
  omega

/-- Witness for C5's amended theorem at the counterexample's input:
`8 + (2 × 24 − 1 × 8) = 48`, matching the code. -/
theorem hashmap_children_bucket_entry_witness :
    (deep_size_of_children
        (.hmap 4 4 24 2 [(.prim 4, .prim 4)]) Context.new).1
      = (specPairsFullFold [(.prim 4, .prim 4)] Context.new).1
          + (2 * 24 - ([((Val.prim 4), (Val.prim 4))].length) * (4 + 4)) := by
  exact hashmap_children_bucket_entry 4 4 24 2 [(.prim 4, .prim 4)]
    Context.new
    (by
      intro kv hkv
      simp at hkv
      subst hkv
      constructor <;> rfl)
    (by simp)

/-- C6 counterexample: measuring a unique heap box (`Box<u8>`-like,
pointee `prim 5`, or doubly nested) from the fresh context returns the
context completely unchanged — no identity of any kind is recorded or
consulted, so no "exclusive-heap-owner" identity enters the context. -/
theorem box_records_no_identity_counterexample :
    deep_size_of_children (.box (.prim 5)) Context.new = (5, Context.new)
    ∧ deep_size_of_children (.box (.box (.prim 5))) Context.new
        = (13, Context.new) := by
  constructor <;>
    simp [deep_size_of_children, sizeOfVal, Context.new, ptrSize]

/-- C6 amended: the context's three identity sets are the visited `Arc`
identities, the visited `Rc` identities and the visited borrowed
reference identities; there is no exclusive-heap-owner set.  The `Box`
impl neither records nor consults any identity: it contributes the
pointee's immediate size plus its owned-children size and ends in
exactly the context the pointee's own traversal produces (identically
the context itself when the pointee is a leaf). -/
theorem context_three_sets_box_untracked :
    ∀ (v : Val) (c : Context) (s : Nat),
    deep_size_of_children (.box v) c
        = (sizeOfVal v + (deep_size_of_children v c).1,
           (deep_size_of_children v c).2)
      ∧ deep_size_of_children (.box (.prim s)) c = (s, c)
      ∧ Context.new = { arcs := [], rcs := [], refs := [] } := by
  intro v c s
  refine ⟨?_, ?_, rfl⟩
  · simp [deep_size_of_children]
  · simp [deep_size_of_children, sizeOfVal]

/-- C7 counterexample: a pair of two 4-byte primitives.  The tuple impl
sums the components' owned-children sizes only, giving 0; the spec's
"sum of each component's full size" gives 8. -/
theorem tuple_full_size_counterexample :
    (deep_size_of_children (.tup [.prim 4, .prim 4]) Context.new).1 = 0
    ∧ (specFullSizesFold [.prim 4, .prim 4] Context.new).1 = 8
    ∧ (deep_size_of_children (.tup [.prim 4, .prim 4]) Context.new).1
        ≠ (specFullSizesFold [.prim 4, .prim 4] Context.new).1 := by
  refine ⟨?_, ?_, ?_⟩ <;>
    simp [deep_size_of_children, children_fold, specFullSizesFold,
      sizeOfVal, Context.new]

/-- C7 amended: a tuple's owned-children size is the sum of each
component's owned-children size, context threaded left to right
(component immediate sizes live in the tuple's own immediate storage
and are not added again). -/
theorem tuple_children_sum :
    ∀ (f : Val) (fs : List Val) (c : Context),
    deep_size_of_children (.tup []) c = (0, c)
      ∧ (deep_size_of_children (.tup (f :: fs)) c).1
          = (deep_size_of_children f c).1
            + (deep_size_of_children (.tup fs)
                (deep_size_of_children f c).2).1
      ∧ (deep_size_of_children (.tup (f :: fs)) c).2
          = (deep_size_of_children (.tup fs)
              (deep_size_of_children f c).2).2 := by
  intro f fs c
  refine ⟨?_, ?_, ?_⟩ <;> simp [deep_size_of_children, children_fold]

namespace Derive

/-- `syn::Fields` as matched by `deepsize_sum` in
`deepsize_derive/src/lib.rs`: named fields, unnamed (positional)
fields, or a unit struct. -/
inductive Fields : Type where
  | named (names : List String)
  | unnamed (count : Nat)
  | unit

/-- `syn::Data`: the shape of the type definition the derive runs on. -/
inductive Data : Type where
  | struct (fields : Fields)
  | enum
  | union

/-- The body `deepsize_sum` generates for `deep_size_of_children`:
`0 + Σ deep_size_of_children(&self.name, context)` over the named
fields, `0 + Σ deep_size_of_children(&self.i, context)` over the
positional indices, or the literal `0` for a unit struct. -/
inductive GenBody : Type where
  | sumNamed (names : List String)
  | sumIndexed (count : Nat)
  | zero

/-- `deepsize_sum`: the Field-Sum Generator's body builder.  On
`Data::Enum` and `Data::Union` the source hits `unimplemented!()`,
which aborts macro expansion with the "not implemented" panic message;
modelled as `Except.error`. -/
def deepsize_sum : Data → Except String GenBody
  | .struct (.named ns) => .ok (.sumNamed ns)
  | .struct (.unnamed n) => .ok (.sumIndexed n)
  | .struct .unit => .ok .zero
  | .enum => .error "not implemented"
  | .union => .error "not implemented"

end Derive

/-- C8: invoked on a sum type (enum) or union, the Field-Sum Generator
fails at generation time with the unimplemented-construct diagnostic
and never produces a generated body — in particular never the
default-zero body. -/
theorem derive_enum_fails :
    ∀ (d : Derive.Data), (d = .enum ∨ d = .union) →
    Derive.deepsize_sum d = Except.error "not implemented"
      ∧ ∀ g, Derive.deepsize_sum d ≠ Except.ok g := by
  intro d hd
  rcases hd with h | h <;> subst h <;>
    exact ⟨rfl, fun g h => by simp [Derive.deepsize_sum] at h⟩

/-- Witness for C8 at `d = Data::Enum`: the generator errors and in
particular does not generate the zero body. -/
theorem derive_enum_fails_witness :
    Derive.deepsize_sum .enum = Except.error "not implemented"
      ∧ Derive.deepsize_sum .enum ≠ Except.ok .zero :=
  ⟨(derive_enum_fails .enum (Or.inl rfl)).1,
   (derive_enum_fails .enum (Or.inl rfl)).2 .zero⟩
